import Mathlib

/-!
Shallow embedding of the B-spline core of the splinefit repository
(file splinefit/bspline.py), over exact rational arithmetic.

Modelling conventions, used throughout:
 - Python floats are modelled by the rationals; numpy float operations
   become exact rational operations.  np.isclose(a, b) is modelled by
   exact equality a = b.
 - Python lists / 1-D numpy arrays become List Rat.  A read l[k] whose
   index k may be negative uses pyget, which models the Python wrap
   around rule l[k] = l[len l + k] for -len l <= k < 0.  Reads that are
   in bounds in every situation a theorem speaks about use List.getD.
 - External library routines (numpy SVD inside svd_inv, scipy kmeans,
   scipy.optimize.root) are not repository code; where a claim depends
   on them, their output is a parameter of the embedded function and the
   surrounding repository code is embedded faithfully around it.
-/

namespace SplineFit

/-- Python list read with wrap around for negative indices: for
-len l <= k < 0, Python evaluates l[k] as l[len l + k]; nonnegative
in-bounds indices read directly.  Out-of-range indices (which raise
IndexError in Python) fall back to the default 0 and are never reached
under the hypotheses of the theorems below. -/
def pyget (l : List ℚ) (k : ℤ) : ℚ :=
  if k < 0 then l.getD (l.length - (-k).toNat) 0 else l.getD k.toNat 0

theorem pyget_natCast (l : List ℚ) (n : ℕ) : pyget l (n : ℤ) = l.getD n 0 := by
  rw [pyget, if_neg (Int.not_lt.mpr (Int.natCast_nonneg n)), Int.toNat_natCast]

theorem pyget_ofNat (l : List ℚ) (n : ℕ) [n.AtLeastTwo] :
    pyget l (no_index (OfNat.ofNat n)) = l.getD (OfNat.ofNat n) 0 :=
  pyget_natCast l n

theorem pyget_zero (l : List ℚ) : pyget l 0 = l.getD 0 0 := pyget_natCast l 0

theorem pyget_one (l : List ℚ) : pyget l 1 = l.getD 1 0 := pyget_natCast l 1

theorem pyget_neg_natCast (l : List ℚ) (n : ℕ) (h : 0 < n) :
    pyget l (-(n : ℤ)) = l.getD (l.length - n) 0 := by
  rw [pyget, if_pos (neg_lt_zero.mpr (by exact_mod_cast h)), neg_neg, Int.toNat_natCast]

theorem pyget_neg_ofNat (l : List ℚ) (n : ℕ) [NeZero n] :
    pyget l (no_index (-(OfNat.ofNat n : ℤ))) = l.getD (l.length - OfNat.ofNat n) 0 :=
  pyget_neg_natCast l n (Nat.pos_of_ne_zero (NeZero.ne n))

/-- Linear scan of the loop body of findspan: return the first index i
in the given list with U[i] <= u < U[i+1]; if none matches, fall through
to the default n. -/
def findspanLoop (u : ℚ) (U : List ℚ) (n : ℕ) : List ℕ → ℕ
  | [] => n
  | i :: is =>
    if U.getD i 0 ≤ u ∧ u < U.getD (i + 1) 0 then i
    else findspanLoop u U n is

/-- Embedding of findspan(n, p, u, U): if u equals U[n+1] return n, else
scan i over range(p, p+n) and return the first i with
U[i] <= u < U[i+1], falling back to n.  (The binary-search block after
the scan in the source is dead code, placed after an unconditional
return, and is therefore not part of the embedding.) -/
def findspan (n p : ℕ) (u : ℚ) (U : List ℚ) : ℕ :=
  if u = U.getD (n + 1) 0 then n
  else findspanLoop u U n (List.range' p n)

/-- Embedding of left[j] = u - U[i+1-j] from basisfuns.  The source
index i+1-j is an int that Python would wrap if negative, hence pyget. -/
def bleft (U : List ℚ) (i : ℕ) (u : ℚ) (j : ℕ) : ℚ :=
  u - pyget U ((i : ℤ) + 1 - (j : ℤ))

/-- Embedding of right[j] = U[i+j] - u from basisfuns. -/
def bright (U : List ℚ) (i : ℕ) (u : ℚ) (j : ℕ) : ℚ :=
  pyget U ((i : ℤ) + (j : ℤ)) - u

/-- Embedding of the inner loop (over r) of basisfuns, at outer index j.
State is the pair (N, saved).  The list argument enumerates the values
of r still to process; on a zero denominator the source sets N[r] = 0
and breaks out of the loop, keeping the current saved. -/
def binner (U : List ℚ) (i : ℕ) (u : ℚ) (j : ℕ) :
    List ℕ → List ℚ → ℚ → List ℚ × ℚ
  | [], N, saved => (N, saved)
  | r :: rs, N, saved =>
    let denom := bright U i u (r + 1) + bleft U i u (j - r)
    if denom = 0 then (N.set r 0, saved)
    else
      let temp := N.getD r 0 / denom
      binner U i u j rs (N.set r (saved + bright U i u (r + 1) * temp))
        (bleft U i u (j - r) * temp)

/-- Embedding of the outer loop (over j = 1..p) of basisfuns: run the
inner loop on r = 0..j-1 starting from saved = 0, then set N[j] to the
final saved. -/
def bouter (U : List ℚ) (i : ℕ) (u : ℚ) : List ℕ → List ℚ → List ℚ
  | [], N => N
  | j :: js, N =>
    let out := binner U i u j (List.range j) N 0
    bouter U i u js (out.1.set j out.2)

/-- Embedding of basisfuns(i, u, p, U): the two isclose shortcuts
against the first and last knot return one-hot vectors; otherwise the
triangular de Boor recurrence runs from N = [1, 0, ..., 0]. -/
def basisfuns (i : ℕ) (u : ℚ) (p : ℕ) (U : List ℚ) : List ℚ :=
  if u = U.getD 0 0 then 1 :: List.replicate p 0
  else if u = U.getLastD 0 then List.replicate p 0 ++ [1]
  else bouter U i u ((List.range p).map (· + 1)) (1 :: List.replicate p 0)

/-- Embedding of curvepoint(p, U, P, u).  The source computes
n = len(P) - p as a Python int; it is modelled with truncated natural
subtraction, which agrees with the source whenever p <= len(P) (true for
every consistent curve, where len(U) = p + len(P) + 1 and U is clamped).
The accumulation loop reads P[span-p+i], whose index can be negative and
wrap, hence pyget. -/
def curvepoint (p : ℕ) (U P : List ℚ) (u : ℚ) : ℚ :=
  let n := P.length - p
  let span := findspan n p u U
  let N := basisfuns span u p U
  if U.getLastD 0 = u then P.getLastD 0
  else
    ((List.range (p + 1)).map
      (fun i => N.getD i 0 * pyget P ((span : ℤ) - (p : ℤ) + (i : ℤ)))).sum

/-! Knot vector builders. -/

/-- Embedding of uniformknots(m, p, a, b): the interior knots are the
interior entries t[1:-1] of np.linspace(a, b, m+2), namely
a + (k+1)(b-a)/(m+1) for k = 0..m-1, clamped by p+1 copies of a and b. -/
def uniformknots (m p : ℕ) (a b : ℚ) : List ℚ :=
  List.replicate (p + 1) a ++
    (List.range m).map (fun k : ℕ => a + ((k : ℚ) + 1) * (b - a) / ((m : ℚ) + 1)) ++
    List.replicate (p + 1) b

/-- Embedding of customknots(t, p, a, b). -/
def customknots (t : List ℚ) (p : ℕ) (a b : ℚ) : List ℚ :=
  List.replicate (p + 1) a ++ t ++ List.replicate (p + 1) b

/-- Insertion into a sorted list, auxiliary for the embedding of np.sort. -/
def insertSorted (x : ℚ) : List ℚ → List ℚ
  | [] => [x]
  | y :: ys => if x ≤ y then x :: y :: ys else y :: insertSorted x ys

/-- Embedding of np.sort (ascending) as insertion sort; the sorted output
and multiset of elements are what the repository relies on. -/
def isort (l : List ℚ) : List ℚ := l.foldr insertSorted []

/-- Embedding of kmeansknots(s, m, p, a, b).  The scipy kmeans call is an
external clustering library; its returned cluster centers are the
parameter centers here.  The repository code then sorts them ascending
and clamps with p+1 copies of a and b. -/
def kmeansknots (centers : List ℚ) (p : ℕ) (a b : ℚ) : List ℚ :=
  List.replicate (p + 1) a ++ isort centers ++ List.replicate (p + 1) b

/-- Embedding of averageknots(s, m, p, a, b): it fills t[i] for
i = 0..m+1 with sum(s[i:i+p-1]) * 1.0 / p (a slice of at most p-1
consecutive samples, truncated at the end of s, divided by p) and clamps
with p+1 copies of a and b.  For p = 0 the source raises
ZeroDivisionError; the model is only used with p >= 1, where the slice
s[i:i+p-1] is (s.drop i).take (p-1). -/
def averageknots (s : List ℚ) (m p : ℕ) (a b : ℚ) : List ℚ :=
  List.replicate (p + 1) a ++
    (List.range (m + 2)).map (fun i => ((s.drop i).take (p - 1)).sum / (p : ℚ)) ++
    List.replicate (p + 1) b

/-! Parameterization maps. -/

/-- Embedding of Python min over a nonempty numeric array. -/
def listMin (l : List ℚ) : ℚ := l.foldl min (l.headD 0)

/-- Embedding of Python max over a nonempty numeric array. -/
def listMax (l : List ℚ) : ℚ := l.foldl max (l.headD 0)

/-- Embedding of xmap(x, a, b): denom = max(x) - min(x), replaced by 1
when it is (numerically) zero; then each sample maps to
(b-a) * (x_i - min(x)) / denom + a. -/
def xmap (x : List ℚ) (a b : ℚ) : List ℚ :=
  let denom0 := listMax x - listMin x
  let denom := if denom0 = 0 then 1 else denom0
  x.map (fun xi => (b - a) * ((xi - listMin x) / denom) + a)

/-- Rational model of np.sqrt.  It is exact on every input whose true
square root is rational (in particular qsqrt 0 = 0); the theorems below
only ever evaluate it at such inputs. -/
def qsqrt (q : ℚ) : ℚ := (Nat.sqrt q.num.toNat : ℚ) / (Nat.sqrt q.den : ℚ)

/-- Embedding of the cumulative-distance loop of chords:
d[0] = acc, d[i+1] = d[i] + dists[i]. -/
def cumsum (acc : ℚ) : List ℚ → List ℚ
  | [] => [acc]
  | d :: ds => acc :: cumsum (acc + d) ds

/-- Consecutive chord lengths sqrt(dx^2 + dy^2 + dz^2) of chords; the
optional z models the z=None default (dz = 0). -/
def chordLengths (x y : List ℚ) (z : Option (List ℚ)) : List ℚ :=
  let dx := List.zipWith (fun s t => s - t) x.tail x
  let dy := List.zipWith (fun s t => s - t) y.tail y
  let dz := match z with
    | none => List.replicate dx.length 0
    | some zl => List.zipWith (fun s t => s - t) zl.tail zl
  (List.zipWith (fun s t => s + t)
    (List.zipWith (fun s t => s * s + t * t) dx dy)
    (dz.map (fun w => w * w))).map qsqrt

/-- Final normalization denominator max(d) - min(d) of chords, which the
source divides by without any zero guard. -/
def chordsDenom (x y : List ℚ) (z : Option (List ℚ)) : ℚ :=
  let d := cumsum 0 (chordLengths x y z)
  listMax d - listMin d

/-- Embedding of chords(x, y, z, a, b): cumulative chord lengths rescaled
to the interval by d = (b-a)(d - min d)/(max d - min d) + a. -/
def chords (x y : List ℚ) (z : Option (List ℚ)) (a b : ℚ) : List ℚ :=
  let d := cumsum 0 (chordLengths x y z)
  d.map (fun di => (b - a) * (di - listMin d) / (listMax d - listMin d) + a)

/-! Regularized least squares fit. -/

/-- Pointwise update M[r, c] := v of a matrix represented as a total
function; models a single numpy element assignment. -/
def updf (M : ℕ → ℕ → ℚ) (r c : ℕ) (v : ℚ) : ℕ → ℕ → ℚ :=
  fun i j => if i = r ∧ j = c then v else M i j

/-- Body of the row loop of derivative_matrix, in source order:
D[i, i+1] = 1, then D[i, i-0] = -2, then D[i, i-1] = 1. -/
def dmRow (D : ℕ → ℕ → ℚ) (i : ℕ) : ℕ → ℕ → ℚ :=
  updf (updf (updf D i (i + 1) 1) i i (-2)) i (i - 1) 1

/-- Embedding of derivative_matrix(n), as the function giving the matrix
entries.  The n = 2 branch builds [[-1, 1], [-1, 1]]; otherwise row 0 is
set to 1, -2, 1 at columns 0, 1, 2, the loop fills rows 1..n-2 with the
centered stencil, and the final row n-1 is set to 1, -2, 1 at columns
0, 1, 2 (indices -1 in the source denote row n-1 via Python wrap
around).  For n <= 1 the source raises IndexError; the model is only
used with n >= 2. -/
def derivative_matrix (n : ℕ) : ℕ → ℕ → ℚ :=
  if n = 2 then
    updf (updf (updf (updf (fun _ _ => 0) 0 0 (-1)) 0 1 1) 1 0 (-1)) 1 1 1
  else
    let D0 := updf (updf (updf (fun _ _ => 0) 0 0 1) 0 1 (-2)) 0 2 1
    let D1 := (List.range' 1 (n - 2)).foldl dmRow D0
    updf (updf (updf D1 (n - 1) 0 1) (n - 1) 1 (-2)) (n - 1) 2 1

/-- Embedding of the collocation matrix built by lsq: row i scatters the
p+1 basisfuns values of sample x[i] into columns span-p..span; all other
entries stay zero.  Entry (i, c) is therefore N[c+p-span] when
span-p <= c <= span and 0 otherwise. -/
def collocA (x U : List ℚ) (p : ℕ) (i c : ℕ) : ℚ :=
  let n := U.length - p - 2
  let xi := x.getD i 0
  let span := findspan n p xi U
  let N := basisfuns span xi p U
  if (span : ℤ) - (p : ℤ) ≤ (c : ℤ) ∧ (c : ℤ) ≤ (span : ℤ) then N.getD (c + p - span) 0
  else 0

/-- Dot product of row i of a matrix (given as a function, with ncols
columns) with a vector. -/
def dotRow (A : ℕ → ℕ → ℚ) (ncols : ℕ) (v : List ℚ) (i : ℕ) : ℚ :=
  ((List.range ncols).map (fun c => A i c * v.getD c 0)).sum

/-- Squared Euclidean norm of A.dot(v) - b, the square of the
np.linalg.norm residual of lsq.  Two residuals are equal (respectively
different) exactly when the squared versions are, so the squared norm is
a faithful carrier for the residual comparisons below. -/
def resSqA (A : ℕ → ℕ → ℚ) (ncols : ℕ) (v b : List ℚ) : ℚ :=
  ((List.range b.length).map
    (fun i => (dotRow A ncols v i - b.getD i 0) * (dotRow A ncols v i - b.getD i 0))).sum

/-- Embedding of the endpoint interpolation step of lsq:
p0[0] = y[0] followed by p0[-1] = y[-1]. -/
def pinEnds (p0 y : List ℚ) : List ℚ :=
  (p0.set 0 (y.getD 0 0)).set (p0.length - 1) (y.getLastD 0)

/-- Embedding of lsq(x, y, U, p, s, tol, a, w).  The solved control
points p0 = svd_inv(A, b, s, tol, D=R) come from the external numpy SVD
(np.linalg.svd inside svd_inv); they are the parameter p0 here, and the
smoothing, tolerance and jump-penalty arguments influence only that
external solve.  Around it the source is embedded faithfully: the
residual is the norm of A.dot(p0) - b computed before the endpoint
interpolation step, and the returned control points are p0 with first
and last entry overwritten by y[0] and y[-1]. -/
def lsq (x y U : List ℚ) (p : ℕ) (p0 : List ℚ) : List ℚ × ℚ :=
  let A := collocA x U p
  let res := resSqA A (U.length - 1 - p) p0 y
  (pinEnds p0 y, res)

/-! Transfinite interpolation inversion. -/

/-- Embedding of the local clamp in uvinv. -/
def clamp (x : ℚ) : ℚ := if x < 0 then 0 else if x > 1 then 1 else x

/-- Embedding of the result of uvinv(xp, yp, u0, v0, l, r, b, t).  The
scipy.optimize.root call (method broyden1, tol 1e-2, maxiter 30) is an
external solver; whatever final iterate root.x it produces — converged
or not, the source never inspects the convergence flag and never raises
— is the parameter rootx here, and the source clamps it componentwise
onto the unit square before returning. -/
def uvinv (rootx : ℚ × ℚ) : ℚ × ℚ := (clamp rootx.1, clamp rootx.2)

/-! General list helper lemmas shared by the claim proofs. -/

theorem getD_set_ne (l : List ℚ) (i t : ℕ) (a : ℚ) (h : i ≠ t) :
    (l.set i a).getD t 0 = l.getD t 0 := by
  simp [List.getD, List.getElem?_set_ne h]

theorem getD_set_self (l : List ℚ) (i : ℕ) (a : ℚ) (h : i < l.length) :
    (l.set i a).getD i 0 = a := by
  simp [List.getD, List.getElem?_set_self, h]

theorem getLastD_eq_getD (l : List ℚ) :
    l.getLastD 0 = l.getD (l.length - 1) 0 := by
  rw [List.getLastD_eq_getLast?, List.getLast?_eq_getElem?, List.getD_eq_getElem?_getD]

theorem sum_set (l : List ℚ) (i : ℕ) (a : ℚ) (h : i < l.length) :
    (l.set i a).sum = l.sum - l.getD i 0 + a := by
  induction l generalizing i with
  | nil => simp at h
  | cons x xs ih =>
    cases i with
    | zero => simp [List.sum_cons, List.getD_cons_zero]; ring
    | succ n =>
      simp only [List.set_cons_succ, List.sum_cons, List.getD_cons_succ]
      rw [ih n (by simpa using h)]
      ring

theorem getD_replicate_zero (n t : ℕ) : (List.replicate n (0 : ℚ)).getD t 0 = 0 := by
  induction n generalizing t with
  | zero => simp
  | succ m ih =>
    cases t with
    | zero => simp
    | succ s => simpa [List.replicate_succ] using ih s

theorem sorted_getD_mono (U : List ℚ) (hU : List.Sorted (· ≤ ·) U) (s t : ℕ)
    (hst : s ≤ t) (ht : t < U.length) : U.getD s 0 ≤ U.getD t 0 := by
  have hs : s < U.length := lt_of_le_of_lt hst ht
  rw [List.getD_eq_getElem _ _ hs, List.getD_eq_getElem _ _ ht]
  rcases lt_or_eq_of_le hst with h | h
  · exact hU.rel_get_of_lt (by simpa using h)
  · subst h; exact le_refl _

/-! Claim theorems. -/

/-- C1 (boundary pinning): for any completed curve fit, the returned
control points have first entry y[0] and last entry y[-1], exactly.  The
parameter p0 ranges over every possible output of the external SVD
solve; its length is the column count m - p of the collocation matrix,
and a completed fit has m - p >= 2 (for m - p <= 1 the source raises
IndexError inside derivative_matrix before returning). -/
theorem lsq_boundary_pinning (x y U : List ℚ) (p : ℕ) (p0 : List ℚ)
    (hxy : x.length = y.length) (hy : y ≠ [])
    (hlen : p0.length = U.length - 1 - p) (h2 : 2 ≤ p0.length) :
    (lsq x y U p p0).1.getD 0 0 = y.getD 0 0 ∧
    (lsq x y U p p0).1.getLastD 0 = y.getLastD 0 := by
  have hpos : 0 < p0.length := lt_of_lt_of_le (by norm_num) h2
  have hne : p0.length - 1 ≠ 0 := by omega
  have hL : (lsq x y U p p0).1 = pinEnds p0 y := rfl
  constructor
  · rw [hL, pinEnds, getD_set_ne _ _ _ _ (by simpa using hne),
      getD_set_self _ _ _ (by simpa using hpos)]
  · rw [hL, pinEnds, getLastD_eq_getD]
    have hlen2 : ((p0.set 0 (y.getD 0 0)).set (p0.length - 1) (y.getLastD 0)).length
        = p0.length := by simp
    rw [hlen2]
    have hsetlen : p0.length - 1 < (p0.set 0 (y.getD 0 0)).length := by
      simp; omega
    rw [getD_set_self _ _ _ hsetlen]

/-- C1 witness: a concrete completed fit with the hypotheses discharged
and both pinned entries evaluated. -/
theorem lsq_boundary_pinning_witness :
    (lsq [0, 1] [5, 7] [0, 0, 1, 1] 1 [0, 0]).1.getD 0 0 = ([5, 7] : List ℚ).getD 0 0 ∧
    (lsq [0, 1] [5, 7] [0, 0, 1, 1] 1 [0, 0]).1.getLastD 0 = ([5, 7] : List ℚ).getLastD 0 :=
  lsq_boundary_pinning [0, 1] [5, 7] [0, 0, 1, 1] 1 [0, 0] (by decide)
    (by simp) (by decide) (by decide)

/-- C8 (inversion result domain): whatever final iterate the external
root finder produces — converged within its 30-iteration cap or not —
uvinv returns it clamped into the unit square; the source raises no
error in either case, which the model reflects by being total in the
solver output. -/
theorem uvinv_unit_square (rootx : ℚ × ℚ) :
    0 ≤ (uvinv rootx).1 ∧ (uvinv rootx).1 ≤ 1 ∧
    0 ≤ (uvinv rootx).2 ∧ (uvinv rootx).2 ≤ 1 := by
  have hc : ∀ q : ℚ, 0 ≤ clamp q ∧ clamp q ≤ 1 := by
    intro q
    unfold clamp
    split_ifs with h1 h2
    · exact ⟨le_refl 0, by norm_num⟩
    · exact ⟨by norm_num, le_refl 1⟩
    · exact ⟨le_of_not_lt h1, le_of_not_lt h2⟩
  exact ⟨(hc rootx.1).1, (hc rootx.1).2, (hc rootx.2).1, (hc rootx.2).2⟩

/-- C10 (residual computed before pinning): the residual returned by lsq
is the (squared) norm of A.dot(p0) - b for the raw SVD solution p0,
before the first and last control points are overwritten; and on a
concrete fit the residual of the actually returned control points
differs from the returned residual.  In the concrete instance the
solver output p0 = [0, 0] is exactly what svd_inv produces when every
singular value is below the truncation tolerance (e.g. tol very large),
so the run is realizable. -/
theorem lsq_residual_prepin :
    (∀ (x y U : List ℚ) (p : ℕ) (p0 : List ℚ),
      (lsq x y U p p0).2 = resSqA (collocA x U p) (U.length - 1 - p) p0 y) ∧
    (lsq [0, 1] [5, 7] [0, 0, 1, 1] 1 [0, 0]).2 ≠
      resSqA (collocA [0, 1] [0, 0, 1, 1] 1) 2
        ((lsq [0, 1] [5, 7] [0, 0, 1, 1] 1 [0, 0]).1) [5, 7] := by
  constructor
  · intro x y U p p0; rfl
  · norm_num [lsq, resSqA, dotRow, collocA, pinEnds, findspan, findspanLoop, basisfuns,
      List.range', List.range_succ, List.replicate, List.set]

/-! Sorting lemmas for the embedded np.sort. -/

theorem mem_insertSorted (x y : ℚ) (l : List ℚ) :
    y ∈ insertSorted x l ↔ y = x ∨ y ∈ l := by
  induction l with
  | nil => simp [insertSorted]
  | cons z zs ih =>
    by_cases h : x ≤ z
    · rw [insertSorted, if_pos h]
      simp [List.mem_cons]
    · rw [insertSorted, if_neg h]
      simp only [List.mem_cons, ih]
      tauto

theorem sorted_insertSorted (x : ℚ) (l : List ℚ) (hl : List.Sorted (· ≤ ·) l) :
    List.Sorted (· ≤ ·) (insertSorted x l) := by
  induction l with
  | nil => simp [insertSorted]
  | cons z zs ih =>
    rw [List.sorted_cons] at hl
    by_cases h : x ≤ z
    · rw [insertSorted, if_pos h, List.sorted_cons]
      refine ⟨?_, List.sorted_cons.mpr hl⟩
      intro b hb
      rcases List.mem_cons.mp hb with hb | hb
      · exact hb ▸ h
      · exact le_trans h (hl.1 b hb)
    · rw [insertSorted, if_neg h, List.sorted_cons]
      refine ⟨?_, ih hl.2⟩
      intro b hb
      rcases (mem_insertSorted x b zs).mp hb with hb | hb
      · exact hb ▸ le_of_not_le h
      · exact hl.1 b hb

theorem sorted_isort (l : List ℚ) : List.Sorted (· ≤ ·) (isort l) := by
  induction l with
  | nil => simp [isort]
  | cons x xs ih => exact sorted_insertSorted x (isort xs) ih

theorem mem_isort (y : ℚ) (l : List ℚ) : y ∈ isort l ↔ y ∈ l := by
  induction l with
  | nil => simp [isort]
  | cons x xs ih =>
    show y ∈ insertSorted x (isort xs) ↔ _
    rw [mem_insertSorted, ih]
    simp

/-! The clamped knot-vector invariant and the builder theorems. -/

/-- The invariant claimed for every built knot vector: the first p+1
entries equal a, the last p+1 entries equal b, and the whole sequence
is non-decreasing. -/
def clampedKnots (U : List ℚ) (p : ℕ) (a b : ℚ) : Prop :=
  U.take (p + 1) = List.replicate (p + 1) a ∧
  U.drop (U.length - (p + 1)) = List.replicate (p + 1) b ∧
  List.Sorted (· ≤ ·) U

theorem take_sandwich (t l2 : List ℚ) (p : ℕ) (a : ℚ) :
    (List.replicate (p + 1) a ++ t ++ l2).take (p + 1) = List.replicate (p + 1) a := by
  rw [List.append_assoc]
  have h := List.take_left (List.replicate (p + 1) a) (t ++ l2)
  simpa using h

theorem drop_sandwich (t : List ℚ) (p : ℕ) (a b : ℚ) :
    (List.replicate (p + 1) a ++ t ++ List.replicate (p + 1) b).drop
      ((List.replicate (p + 1) a ++ t ++ List.replicate (p + 1) b).length - (p + 1)) =
      List.replicate (p + 1) b := by
  have hlen : (List.replicate (p + 1) a ++ t ++ List.replicate (p + 1) b).length - (p + 1)
      = (List.replicate (p + 1) a ++ t).length := by
    simp
    omega
  rw [hlen]
  exact List.drop_left _ _

theorem sorted_sandwich (t : List ℚ) (p : ℕ) (a b : ℚ) (hab : a ≤ b)
    (ht : List.Sorted (· ≤ ·) t) (hmem : ∀ x ∈ t, a ≤ x ∧ x ≤ b) :
    List.Sorted (· ≤ ·) (List.replicate (p + 1) a ++ t ++ List.replicate (p + 1) b) := by
  rw [List.append_assoc]
  unfold List.Sorted
  rw [List.pairwise_append]
  refine ⟨?_, ?_, ?_⟩
  · exact List.pairwise_replicate.mpr (Or.inr (le_refl a))
  · rw [List.pairwise_append]
    refine ⟨ht, List.pairwise_replicate.mpr (Or.inr (le_refl b)), ?_⟩
    intro x hx y hy
    rw [List.eq_of_mem_replicate hy]
    exact (hmem x hx).2
  · intro x hx y hy
    rw [List.eq_of_mem_replicate hx]
    rcases List.mem_append.mp hy with hy | hy
    · exact (hmem y hy).1
    · rw [List.eq_of_mem_replicate hy]; exact hab

theorem clampedKnots_sandwich (t : List ℚ) (p : ℕ) (a b : ℚ) (hab : a ≤ b)
    (ht : List.Sorted (· ≤ ·) t) (hmem : ∀ x ∈ t, a ≤ x ∧ x ≤ b) :
    clampedKnots (List.replicate (p + 1) a ++ t ++ List.replicate (p + 1) b) p a b :=
  ⟨take_sandwich t _ p a, drop_sandwich t p a b, sorted_sandwich t p a b hab ht hmem⟩

theorem uniform_interior_sorted (m : ℕ) (a b : ℚ) (hab : a ≤ b) :
    List.Sorted (· ≤ ·)
      ((List.range m).map (fun k : ℕ => a + ((k : ℚ) + 1) * (b - a) / ((m : ℚ) + 1))) := by
  refine List.Pairwise.map _ ?_ (List.pairwise_lt_range m)
  intro i j hij
  have hm : (0 : ℚ) < (m : ℚ) + 1 := by positivity
  have hba : (0 : ℚ) ≤ b - a := by linarith
  have hcast : ((i : ℚ) + 1) ≤ ((j : ℚ) + 1) := by
    have := (Nat.cast_le (α := ℚ)).mpr (le_of_lt hij)
    linarith
  have hmul := mul_le_mul_of_nonneg_right hcast hba
  have hdiv := (div_le_div_right hm).mpr hmul
  linarith

theorem uniform_interior_mem (m : ℕ) (a b : ℚ) (hab : a ≤ b) :
    ∀ x ∈ (List.range m).map (fun k : ℕ => a + ((k : ℚ) + 1) * (b - a) / ((m : ℚ) + 1)),
      a ≤ x ∧ x ≤ b := by
  intro x hx
  rcases List.mem_map.mp hx with ⟨k, hk, rfl⟩
  have hkm : k < m := List.mem_range.mp hk
  have hm : (0 : ℚ) < (m : ℚ) + 1 := by positivity
  have hba : (0 : ℚ) ≤ b - a := by linarith
  constructor
  · have hpos : 0 ≤ ((k : ℚ) + 1) * (b - a) / ((m : ℚ) + 1) := by positivity
    linarith
  · have hk1 : ((k : ℚ) + 1) ≤ ((m : ℚ) + 1) := by
      have := (Nat.cast_le (α := ℚ)).mpr (le_of_lt hkm)
      linarith
    have hmul := mul_le_mul_of_nonneg_right hk1 hba
    have hdiv := (div_le_div_right hm).mpr hmul
    have hcancel : ((m : ℚ) + 1) * (b - a) / ((m : ℚ) + 1) = b - a := by
      field_simp
    rw [hcancel] at hdiv
    linarith

/-- C5 amended (clamped knot-vector invariant): uniformknots (with
a <= b), customknots (with sorted, in-range interior knots) and
kmeansknots (whose external cluster centers lie in [a, b], as kmeans
centers of samples in [a, b] do) satisfy the full invariant: first and
last p+1 entries equal a and b and the vector is non-decreasing.  For
averageknots only the boundary clamping holds: its first and last p+1
entries equal a and b, but the full vector need not be non-decreasing
(see the counterexample). -/
theorem knot_builders_clamped (m p : ℕ) (a b : ℚ) (t centers s : List ℚ)
    (hab : a ≤ b) (ht : List.Sorted (· ≤ ·) t) (htmem : ∀ x ∈ t, a ≤ x ∧ x ≤ b)
    (hc : ∀ x ∈ centers, a ≤ x ∧ x ≤ b) :
    clampedKnots (uniformknots m p a b) p a b ∧
    clampedKnots (customknots t p a b) p a b ∧
    clampedKnots (kmeansknots centers p a b) p a b ∧
    (averageknots s m p a b).take (p + 1) = List.replicate (p + 1) a ∧
    (averageknots s m p a b).drop ((averageknots s m p a b).length - (p + 1)) =
      List.replicate (p + 1) b := by
  refine ⟨?_, ?_, ?_, ?_, ?_⟩
  · exact clampedKnots_sandwich _ p a b hab (uniform_interior_sorted m a b hab)
      (uniform_interior_mem m a b hab)
  · exact clampedKnots_sandwich t p a b hab ht htmem
  · refine clampedKnots_sandwich _ p a b hab (sorted_isort centers) ?_
    intro x hx
    exact hc x ((mem_isort x centers).mp hx)
  · exact take_sandwich _ _ p a
  · exact drop_sandwich _ p a b

/-- C5 counterexample: averageknots applied to sorted samples inside
[a, b] = [1/2, 1] produces a knot vector that is not non-decreasing
(its first interior knot 1/3 lies below the boundary value 1/2), so the
claimed invariant fails for the averaged strategy. -/
theorem knot_builders_clamped_cex :
    ¬ List.Sorted (· ≤ ·) (averageknots [1/2, 1/2, 1/2] 0 3 (1/2) 1) := by
  intro h
  have hval : averageknots [1/2, 1/2, 1/2] 0 3 (1/2) 1 =
      [1/2, 1/2, 1/2, 1/2, 1/3, 1/3, 1, 1, 1, 1] := by
    norm_num [averageknots, List.range_succ, List.replicate]
  rw [hval] at h
  have h2 := List.rel_of_sorted_cons h (1/3) (by norm_num)
  norm_num at h2

/-- C5 witness: the invariant evaluated on concrete builds with all
hypotheses discharged. -/
theorem knot_builders_clamped_witness :
    clampedKnots (uniformknots 1 1 0 1) 1 0 1 ∧
    clampedKnots (customknots [1/2] 1 0 1) 1 0 1 ∧
    clampedKnots (kmeansknots [3/4, 1/4] 1 0 1) 1 0 1 := by
  have h := knot_builders_clamped 1 1 0 1 [1/2] [3/4, 1/4] [0, 1]
    (by norm_num) (by simp) (by intro x hx; simp at hx; rw [hx]; norm_num)
    (by intro x hx; simp at hx; rcases hx with h | h <;> rw [h] <;> norm_num)
  exact ⟨h.1, h.2.1, h.2.2.1⟩

/-- C6 amended (averaged knots): interior knot i of
averageknots(s, m, p, a, b) equals the sum of the (at most) p-1
consecutive samples s[i..i+p-2] divided by p — the source divides the
(p-1)-wide sliding window sum by p, so the knot is not the arithmetic
mean of the window — and the result carries p+1 repeats of a and b at
the ends, with m+2 interior entries in total. -/
theorem averageknots_entries (s : List ℚ) (m p : ℕ) (a b : ℚ)
    (hp : 1 ≤ p) (i : ℕ) (hi : i < m + 2) :
    (averageknots s m p a b).getD (p + 1 + i) 0 = ((s.drop i).take (p - 1)).sum / (p : ℚ) ∧
    (averageknots s m p a b).length = (m + 2) + 2 * (p + 1) := by
  constructor
  · rw [averageknots, List.append_assoc,
      List.getD_append_right _ _ _ _ (by simp), List.length_replicate]
    have hidx : p + 1 + i - (p + 1) = i := by omega
    rw [hidx, List.getD_append _ _ _ _ (by simpa using hi)]
    rw [List.getD_eq_getElem?_getD, List.getElem?_map, List.getElem?_range hi]
    simp
  · simp [averageknots]
    ring

/-- C6 counterexample: for the constant sorted samples [3, 3, 3] the
first interior knot equals 2, not the sliding-window arithmetic mean
(3 + 3) / 2 = 3, because the source divides the (p-1)-element window
sum by p. -/
theorem averageknots_entries_cex :
    (averageknots [3, 3, 3] 0 3 0 1).getD 4 0 ≠ ((3 : ℚ) + 3) / 2 := by
  norm_num [averageknots, List.range_succ, List.replicate]

/-- C6 witness: concrete averaged knots with the hypotheses discharged
and the entry formula evaluated. -/
theorem averageknots_entries_witness :
    (averageknots [4, 5, 6] 0 3 0 1).getD 4 0 = 3 ∧
    (averageknots [4, 5, 6] 0 3 0 1).length = 10 := by
  have h := averageknots_entries [4, 5, 6] 0 3 0 1 (by norm_num) 0 (by norm_num)
  constructor
  · rw [show (3:ℕ) + 1 + 0 = 4 from rfl] at h
    rw [h.1]
    norm_num
  · rw [h.2]

/-! Derivative (regularization) matrix characterization. -/

/-- Entry-level description of derivative_matrix(n) for n >= 3, written
from its construction: interior rows 1..n-2 carry the centered stencil
1, -2, 1 at columns i-1, i, i+1; rows 0 and n-1 both carry 1, -2, 1 at
the fixed columns 0, 1, 2. -/
def derivSpec (n i j : ℕ) : ℚ :=
  if i = 0 ∨ i = n - 1 then
    (if j = 0 then 1 else if j = 1 then -2 else if j = 2 then 1 else 0)
  else if j + 1 = i then 1 else if j = i then -2 else if j = i + 1 then 1 else 0

theorem updf_eval (M : ℕ → ℕ → ℚ) (r c : ℕ) (v : ℚ) (i j : ℕ) :
    updf M r c v i j = if i = r ∧ j = c then v else M i j := rfl

theorem dmRow_other (D : ℕ → ℕ → ℚ) (k r c : ℕ) (h : r ≠ k) :
    dmRow D k r c = D r c := by
  simp only [dmRow, updf_eval]
  split_ifs <;>
    first
      | rfl
      | (try simp only [true_and] at *; omega)
      | (exfalso; try simp only [true_and] at *; omega)

theorem dmRow_self (D : ℕ → ℕ → ℚ) (k c : ℕ) (hk : 1 ≤ k) :
    dmRow D k k c =
      if c + 1 = k then 1 else if c = k then -2 else if c = k + 1 then 1 else D k c := by
  simp only [dmRow, updf_eval]
  split_ifs <;>
    first
      | rfl
      | (try simp only [true_and] at *; omega)
      | (exfalso; try simp only [true_and] at *; omega)

theorem foldl_dmRow : ∀ (m k : ℕ), 1 ≤ k → ∀ (D : ℕ → ℕ → ℚ) (r c : ℕ),
    ((List.range' k m).foldl dmRow D) r c =
      if k ≤ r ∧ r < k + m then
        (if c + 1 = r then 1 else if c = r then -2 else if c = r + 1 then 1 else D r c)
      else D r c := by
  intro m
  induction m with
  | zero =>
    intro k hk D r c
    rw [List.range'_zero, List.foldl_nil, if_neg (by omega)]
  | succ m ih =>
    intro k hk D r c
    rw [List.range'_succ, List.foldl_cons, ih (k + 1) (by omega) (dmRow D k) r c]
    by_cases hr : k + 1 ≤ r ∧ r < k + 1 + m
    · rw [if_pos hr, if_pos (show k ≤ r ∧ r < k + (m + 1) by omega),
        dmRow_other D k r c (by omega)]
    · rw [if_neg hr]
      by_cases hk2 : r = k
      · rw [if_pos (show k ≤ r ∧ r < k + (m + 1) by omega), hk2, dmRow_self D k c hk]
      · rw [if_neg (by omega), dmRow_other D k r c hk2]

/-- C9 amended (regularization matrix shape): for n >= 3 every entry of
derivative_matrix(n) is described by derivSpec: rows 1..n-2 are the
centered second-difference stencil [1, -2, 1] around the diagonal, while
row 0 and row n-1 both place [1, -2, 1] at the fixed columns 0, 1, 2 —
so the last row is not supported on columns adjacent to its diagonal,
and the matrix is not tridiagonal.  For n = 2 the simplified form is
[[-1, 1], [-1, 1]]. -/
theorem derivative_matrix_entries :
    (∀ n, 3 ≤ n → ∀ i j, i < n → j < n →
      derivative_matrix n i j = derivSpec n i j) ∧
    (∀ i j, i < 2 → j < 2 →
      derivative_matrix 2 i j = if j = 0 then -1 else 1) := by
  constructor
  · intro n h3 i j hi hj
    have hne2 : n ≠ 2 := by omega
    simp only [derivative_matrix, if_neg hne2, updf_eval]
    rw [foldl_dmRow (n - 2) 1 le_rfl]
    simp only [updf_eval, derivSpec]
    rcases eq_or_ne i (n - 1) with hl | hl
    · rcases eq_or_ne j 2 with hj2 | hj2
      · rw [if_pos ⟨hl, hj2⟩, if_pos (Or.inr hl), if_neg (show ¬j = 0 by omega),
          if_neg (show ¬j = 1 by omega), if_pos hj2]
      · rw [if_neg (show ¬(i = n - 1 ∧ j = 2) by tauto)]
        rcases eq_or_ne j 1 with hj1 | hj1
        · rw [if_pos ⟨hl, hj1⟩, if_pos (Or.inr hl), if_neg (show ¬j = 0 by omega),
            if_pos hj1]
        · rw [if_neg (show ¬(i = n - 1 ∧ j = 1) by tauto)]
          rcases eq_or_ne j 0 with hj0 | hj0
          · rw [if_pos ⟨hl, hj0⟩, if_pos (Or.inr hl), if_pos hj0]
          · rw [if_neg (show ¬(i = n - 1 ∧ j = 0) by tauto),
              if_neg (show ¬(1 ≤ i ∧ i < 1 + (n - 2)) by omega),
              if_neg (show ¬(i = 0 ∧ j = 2) by omega),
              if_neg (show ¬(i = 0 ∧ j = 1) by omega),
              if_neg (show ¬(i = 0 ∧ j = 0) by omega),
              if_pos (Or.inr hl), if_neg hj0, if_neg hj1, if_neg hj2]
    · rcases eq_or_ne i 0 with h0 | h0
      · rw [if_neg (show ¬(i = n - 1 ∧ j = 2) by tauto),
          if_neg (show ¬(i = n - 1 ∧ j = 1) by tauto),
          if_neg (show ¬(i = n - 1 ∧ j = 0) by tauto),
          if_neg (show ¬(1 ≤ i ∧ i < 1 + (n - 2)) by omega),
          if_pos (Or.inl h0)]
        rcases eq_or_ne j 2 with hj2 | hj2
        · rw [if_pos ⟨h0, hj2⟩, if_neg (show ¬j = 0 by omega),
            if_neg (show ¬j = 1 by omega), if_pos hj2]
        · rcases eq_or_ne j 1 with hj1 | hj1
          · rw [if_neg (show ¬(i = 0 ∧ j = 2) by tauto), if_pos ⟨h0, hj1⟩,
              if_neg (show ¬j = 0 by omega), if_pos hj1]
          · rcases eq_or_ne j 0 with hj0 | hj0
            · rw [if_neg (show ¬(i = 0 ∧ j = 2) by tauto),
                if_neg (show ¬(i = 0 ∧ j = 1) by tauto), if_pos ⟨h0, hj0⟩, if_pos hj0]
            · rw [if_neg (show ¬(i = 0 ∧ j = 2) by tauto),
                if_neg (show ¬(i = 0 ∧ j = 1) by tauto),
                if_neg (show ¬(i = 0 ∧ j = 0) by tauto),
                if_neg hj0, if_neg hj1, if_neg hj2]
      · rw [if_neg (show ¬(i = n - 1 ∧ j = 2) by tauto),
          if_neg (show ¬(i = n - 1 ∧ j = 1) by tauto),
          if_neg (show ¬(i = n - 1 ∧ j = 0) by tauto),
          if_pos (show 1 ≤ i ∧ i < 1 + (n - 2) by omega),
          if_neg (show ¬(i = 0 ∨ i = n - 1) by tauto)]
        rcases eq_or_ne (j + 1) i with ha | ha
        · rw [if_pos ha, if_pos ha]
        · rcases eq_or_ne j i with hb | hb
          · rw [if_neg ha, if_pos hb, if_neg ha, if_pos hb]
          · rcases eq_or_ne j (i + 1) with hc | hc
            · rw [if_neg ha, if_neg hb, if_pos hc, if_neg ha, if_neg hb, if_pos hc]
            · rw [if_neg ha, if_neg hb, if_neg hc, if_neg ha, if_neg hb, if_neg hc,
                if_neg (show ¬(i = 0 ∧ j = 2) by tauto),
                if_neg (show ¬(i = 0 ∧ j = 1) by tauto),
                if_neg (show ¬(i = 0 ∧ j = 0) by tauto)]
  · intro i j hi hj
    interval_cases i <;> interval_cases j <;>
      norm_num [derivative_matrix, updf_eval]

/-- C9 counterexample: in derivative_matrix(4) the last row has the
entry 1 at column 0 — three columns away from its diagonal — while its
diagonal entry (3,3) is 0, so the rows are not the tridiagonal pattern
[1, -2, 1] around the diagonal. -/
theorem derivative_matrix_entries_cex :
    derivative_matrix 4 3 0 = 1 ∧ derivative_matrix 4 3 3 = 0 := by
  constructor <;> norm_num [derivative_matrix, dmRow, updf, List.range']

/-- C9 witness: concrete entries of derivative_matrix(5) and the 2×2
form, with all hypotheses discharged. -/
theorem derivative_matrix_entries_witness :
    derivative_matrix 5 2 1 = derivSpec 5 2 1 ∧
    derivative_matrix 5 4 0 = derivSpec 5 4 0 ∧
    derivative_matrix 2 0 0 = -1 := by
  refine ⟨derivative_matrix_entries.1 5 (by norm_num) 2 1 (by norm_num) (by norm_num),
    derivative_matrix_entries.1 5 (by norm_num) 4 0 (by norm_num) (by norm_num), ?_⟩
  have h := derivative_matrix_entries.2 0 0 (by norm_num) (by norm_num)
  simpa using h

/-! Span location. -/

theorem findspanLoop_spec (u : ℚ) (U : List ℚ) (n : ℕ) :
    ∀ is : List ℕ, (∃ i ∈ is, U.getD i 0 ≤ u ∧ u < U.getD (i + 1) 0) →
      findspanLoop u U n is ∈ is ∧
      U.getD (findspanLoop u U n is) 0 ≤ u ∧
      u < U.getD (findspanLoop u U n is + 1) 0 := by
  intro is
  induction is with
  | nil =>
    rintro ⟨i, hi, _⟩
    simp at hi
  | cons a as ih =>
    intro hex
    by_cases ha : U.getD a 0 ≤ u ∧ u < U.getD (a + 1) 0
    · have hr : findspanLoop u U n (a :: as) = a := by
        simp only [findspanLoop, if_pos ha]
      rw [hr]
      exact ⟨List.mem_cons_self a as, ha⟩
    · have hr : findspanLoop u U n (a :: as) = findspanLoop u U n as := by
        simp only [findspanLoop, if_neg ha]
      rw [hr]
      have hex2 : ∃ i ∈ as, U.getD i 0 ≤ u ∧ u < U.getD (i + 1) 0 := by
        rcases hex with ⟨i, hi, hp⟩
        rcases List.mem_cons.mp hi with rfl | hi2
        · exact absurd hp ha
        · exact ⟨i, hi2, hp⟩
      obtain ⟨h1, h2⟩ := ih hex2
      exact ⟨List.mem_cons_of_mem a h1, h2⟩

theorem span_exists (U : List ℚ) (hU : List.Sorted (· ≤ ·) U) (p n : ℕ) (u : ℚ)
    (hp : 1 ≤ p) (hlen : p + n < U.length)
    (hlo : U.getD p 0 ≤ u) (hhi : u < U.getD (n + 1) 0) :
    ∃ i ∈ List.range' p n, U.getD i 0 ≤ u ∧ u < U.getD (i + 1) 0 := by
  have hn : 1 ≤ n := by
    by_contra h
    have hn0 : n = 0 := by omega
    subst hn0
    have h1 : U.getD 1 0 ≤ U.getD p 0 := sorted_getD_mono U hU 1 p hp (by omega)
    simp only [Nat.zero_add] at hhi
    linarith
  have hup : u < U.getD (p + n) 0 := by
    have := sorted_getD_mono U hU (n + 1) (p + n) (by omega) (by omega)
    linarith
  have hex : ∃ j : ℕ, u < U.getD (p + 1 + j) 0 := by
    refine ⟨n - 1, ?_⟩
    have heq : p + 1 + (n - 1) = p + n := by omega
    rw [heq]
    exact hup
  have hj0 : u < U.getD (p + 1 + Nat.find hex) 0 := Nat.find_spec hex
  have hj0n : Nat.find hex ≤ n - 1 := by
    apply Nat.find_min' hex
    have heq : p + 1 + (n - 1) = p + n := by omega
    rw [heq]
    exact hup
  refine ⟨p + Nat.find hex, ?_, ?_, ?_⟩
  · rw [List.mem_range'_1]
    omega
  · rcases Nat.eq_zero_or_pos (Nat.find hex) with h | h
    · rw [h]
      simpa using hlo
    · have hmin : ¬ u < U.getD (p + 1 + (Nat.find hex - 1)) 0 :=
        Nat.find_min hex (by omega)
      have heq : p + 1 + (Nat.find hex - 1) = p + Nat.find hex := by omega
      rw [heq] at hmin
      linarith
  · have heq : p + Nat.find hex + 1 = p + 1 + Nat.find hex := by omega
    rw [heq]
    exact hj0

/-- C3 amended (span location): for every non-decreasing knot vector and
degree p >= 1, findspan returns n when u = U[n+1], and for u in
[U[p], U[n+1]) it returns an index i with p <= i < p+n and
U[i] <= u < U[i+1].  For p = 0 the second part fails (see the
counterexample): the scan can fall through and return n, which lies
outside [p, p+n). -/
theorem findspan_span_location (n p : ℕ) (u : ℚ) (U : List ℚ)
    (hU : List.Sorted (· ≤ ·) U) (hp : 1 ≤ p) (hlen : p + n < U.length) :
    (u = U.getD (n + 1) 0 → findspan n p u U = n) ∧
    (U.getD p 0 ≤ u → u < U.getD (n + 1) 0 →
      p ≤ findspan n p u U ∧ findspan n p u U < p + n ∧
      U.getD (findspan n p u U) 0 ≤ u ∧ u < U.getD (findspan n p u U + 1) 0) := by
  constructor
  · intro h
    rw [findspan, if_pos h]
  · intro hlo hhi
    have hne : u ≠ U.getD (n + 1) 0 := ne_of_lt hhi
    have hr : findspan n p u U = findspanLoop u U n (List.range' p n) := by
      rw [findspan, if_neg hne]
    obtain ⟨hmem, hspan⟩ := findspanLoop_spec u U n (List.range' p n)
      (span_exists U hU p n u hp hlen hlo hhi)
    rw [List.mem_range'_1] at hmem
    rw [hr]
    exact ⟨hmem.1, hmem.2, hspan.1, hspan.2⟩

/-- C3 counterexample: at degree p = 0 with U = [0, 1, 2, 3], n = 2 and
u = 5/2 in [U[p], U[n+1]) = [0, 3), findspan falls through its scan and
returns n = 2, which violates the claimed location p <= i < p + n = 2. -/
theorem findspan_span_location_cex :
    findspan 2 0 (5/2) [0, 1, 2, 3] = 2 ∧ ¬((2 : ℕ) < 0 + 2) := by
  constructor
  · norm_num [findspan, findspanLoop, List.range']
  · norm_num

/-- C3 witness: the span located for a concrete interior parameter. -/
theorem findspan_span_location_witness :
    ((1/2 : ℚ) = ([0, 0, 1, 2, 2] : List ℚ).getD 3 0 →
      findspan 2 1 (1/2) [0, 0, 1, 2, 2] = 2) ∧
    (([0, 0, 1, 2, 2] : List ℚ).getD 1 0 ≤ 1/2 →
      (1/2 : ℚ) < ([0, 0, 1, 2, 2] : List ℚ).getD 3 0 →
      1 ≤ findspan 2 1 (1/2) [0, 0, 1, 2, 2] ∧
      findspan 2 1 (1/2) [0, 0, 1, 2, 2] < 1 + 2 ∧
      ([0, 0, 1, 2, 2] : List ℚ).getD (findspan 2 1 (1/2) [0, 0, 1, 2, 2]) 0 ≤ 1/2 ∧
      (1/2 : ℚ) < ([0, 0, 1, 2, 2] : List ℚ).getD (findspan 2 1 (1/2) [0, 0, 1, 2, 2] + 1) 0) :=
  findspan_span_location 2 1 (1/2) [0, 0, 1, 2, 2] (by decide) (by decide) (by decide)

/-! Division guards in the parameterization maps. -/

theorem foldl_min_replicate (k : ℕ) (c : ℚ) :
    (List.replicate k c).foldl min c = c := by
  induction k with
  | zero => rfl
  | succ k ih => rw [List.replicate_succ, List.foldl_cons, min_self]; exact ih

theorem foldl_max_replicate (k : ℕ) (c : ℚ) :
    (List.replicate k c).foldl max c = c := by
  induction k with
  | zero => rfl
  | succ k ih => rw [List.replicate_succ, List.foldl_cons, max_self]; exact ih

theorem listMin_const (x : List ℚ) (c : ℚ) (hx : x ≠ []) (hall : ∀ v ∈ x, v = c) :
    listMin x = c := by
  have hrep : x = List.replicate x.length c := List.eq_replicate_of_mem hall
  rcases x with _ | ⟨h, t⟩
  · exact absurd rfl hx
  · rw [listMin, hrep]
    have hlen : (h :: t).length = t.length + 1 := by simp
    rw [hlen, List.replicate_succ]
    simp only [List.headD_cons, List.foldl_cons, min_self]
    exact foldl_min_replicate t.length c

theorem listMax_const (x : List ℚ) (c : ℚ) (hx : x ≠ []) (hall : ∀ v ∈ x, v = c) :
    listMax x = c := by
  have hrep : x = List.replicate x.length c := List.eq_replicate_of_mem hall
  rcases x with _ | ⟨h, t⟩
  · exact absurd rfl hx
  · rw [listMax, hrep]
    have hlen : (h :: t).length = t.length + 1 := by simp
    rw [hlen, List.replicate_succ]
    simp only [List.headD_cons, List.foldl_cons, max_self]
    exact foldl_max_replicate t.length c

/-- C7 amended (division guarding in xmap): when all input values are
equal, the raw denominator max(x) - min(x) is zero, the source
substitutes denominator 1, and every output sample equals a.  The
all-coincident chord-length parameterization, by contrast, is not
guarded (see the counterexample). -/
theorem xmap_degenerate_guard (x : List ℚ) (a b c : ℚ)
    (hx : x ≠ []) (hall : ∀ v ∈ x, v = c) :
    listMax x - listMin x = 0 ∧ xmap x a b = List.replicate x.length a := by
  have hmin := listMin_const x c hx hall
  have hmax := listMax_const x c hx hall
  have hd0 : listMax x - listMin x = 0 := by rw [hmin, hmax]; ring
  refine ⟨hd0, ?_⟩
  rw [List.eq_replicate]
  constructor
  · simp [xmap]
  · intro v hv
    rcases List.mem_map.mp hv with ⟨xi, hxi, hfx⟩
    rw [← hfx]
    simp only [hd0, if_pos rfl]
    rw [hall xi hxi, hmin]
    ring

/-- C7 counterexample: the final normalization denominator of chords is
max(d) - min(d) with no zero guard, and for the all-coincident point
list x = y = [0, 0] that denominator is exactly zero: chords divides by
zero (numpy yields NaN), refuting the claim that every division in the
core operations is guarded. -/
theorem xmap_degenerate_guard_cex : chordsDenom [0, 0] [0, 0] none = 0 := by
  norm_num [chordsDenom, chordLengths, cumsum, qsqrt, listMax, listMin, List.replicate]

/-- C7 witness: the degenerate linear range map evaluated concretely. -/
theorem xmap_degenerate_guard_witness :
    listMax [5, 5, 5] - listMin [5, 5, 5] = 0 ∧
    xmap [5, 5, 5] 2 7 = List.replicate ([5, 5, 5] : List ℚ).length 2 :=
  xmap_degenerate_guard [5, 5, 5] 2 7 5 (by simp)
    (by intro v hv; simpa using hv)

/-! Curve evaluation at the endpoints. -/

theorem onehot_dot (p : ℕ) (f : ℕ → ℚ) :
    ((List.range (p + 1)).map (fun i => (1 :: List.replicate p 0).getD i 0 * f i)).sum
      = f 0 := by
  rw [List.range_succ_eq_map]
  simp only [List.map_cons, List.map_map, List.sum_cons, List.getD_cons_zero, one_mul]
  have htail : ∀ x ∈ (List.range p).map
      ((fun i => (1 :: List.replicate p 0).getD i 0 * f i) ∘ Nat.succ), x = 0 := by
    intro x hx
    rcases List.mem_map.mp hx with ⟨i, hi, rfl⟩
    simp only [Function.comp_apply, List.getD_cons_succ]
    rw [getD_replicate_zero]
    ring
  rw [List.sum_eq_zero htail]
  ring

/-- C4 amended (endpoint interpolation): for a clamped knot vector
(first p+1 knots equal to U[0], with the next knot strictly larger) and
at least 2p control points, curvepoint returns P[0] at u = U[0] and
P[-1] at u = U[-1], exactly.  With fewer than 2p control points the
u = U[0] evaluation can return a different control point, because
findspan takes its early return-n branch and the scattered index
span - p becomes negative (see the counterexample). -/
theorem curvepoint_endpoints (p : ℕ) (U P : List ℚ)
    (hp : 1 ≤ p) (hlen : U.length = p + P.length + 1) (hP : 2 * p ≤ P.length)
    (hU : List.Sorted (· ≤ ·) U)
    (hclamp : ∀ k, k ≤ p → U.getD k 0 = U.getD 0 0)
    (hnext : U.getD 0 0 < U.getD (p + 1) 0) :
    curvepoint p U P (U.getD 0 0) = P.getD 0 0 ∧
    curvepoint p U P (U.getLastD 0) = P.getLastD 0 := by
  have hPlen : 2 ≤ P.length := by omega
  set a := U.getD 0 0 with ha
  have hlast : U.getD (p + 1) 0 ≤ U.getLastD 0 := by
    rw [getLastD_eq_getD]
    exact sorted_getD_mono U hU (p + 1) (U.length - 1) (by omega) (by omega)
  have hlast_ne : ¬ (U.getLastD 0 = a) := by
    intro h
    rw [h] at hlast
    linarith
  constructor
  · have hfs : findspan (P.length - p) p a U = p := by
      rw [findspan, if_neg ?hne]
      case hne =>
        have h1 : U.getD (p + 1) 0 ≤ U.getD (P.length - p + 1) 0 :=
          sorted_getD_mono U hU (p + 1) (P.length - p + 1) (by omega) (by omega)
        intro h
        rw [← h] at h1
        linarith
      have hn' : P.length - p = (P.length - p - 1) + 1 := by omega
      rw [hn', List.range'_succ]
      simp only [findspanLoop]
      rw [if_pos ⟨le_of_eq (hclamp p le_rfl), hnext⟩]
    have hbf : basisfuns p a p U = 1 :: List.replicate p 0 := by
      rw [basisfuns, if_pos ha]
    simp only [curvepoint]
    rw [if_neg hlast_ne, hfs, hbf]
    simp only [sub_self, zero_add, pyget_natCast]
    exact onehot_dot p (fun i => P.getD i 0)
  · simp only [curvepoint]
    simp

/-- C4 counterexample: a cubic Bezier segment (p = 3, clamped knot
vector, four control points) evaluated at u = U[0] = 0 returns the
third control point 30, not P[0] = 10: findspan hits its early
return-n branch (U[n+1] = 0 = u with n = len(P) - p = 1) and the
scattered control-point index span - p = -2 wraps around Python style. -/
theorem curvepoint_endpoints_cex :
    curvepoint 3 [0, 0, 0, 0, 1, 1, 1, 1] [10, 20, 30, 40] 0 = 30 ∧
    (30 : ℚ) ≠ ([10, 20, 30, 40] : List ℚ).getD 0 0 := by
  constructor
  · norm_num [curvepoint, findspan, findspanLoop, basisfuns, pyget_ofNat, pyget_zero,
      pyget_one, pyget_neg_ofNat, List.range', List.range_succ, List.replicate, List.set]
  · norm_num

/-- C4 witness: both endpoint values on a concrete degree-1 curve with
all hypotheses discharged. -/
theorem curvepoint_endpoints_witness :
    curvepoint 1 [0, 0, 1, 2, 2] [10, 20, 30] (([0, 0, 1, 2, 2] : List ℚ).getD 0 0)
      = ([10, 20, 30] : List ℚ).getD 0 0 ∧
    curvepoint 1 [0, 0, 1, 2, 2] [10, 20, 30] (([0, 0, 1, 2, 2] : List ℚ).getLastD 0)
      = ([10, 20, 30] : List ℚ).getLastD 0 :=
  curvepoint_endpoints 1 [0, 0, 1, 2, 2] [10, 20, 30] (by decide) (by decide)
    (by decide) (by decide) (by decide) (by decide)

/-! Partition of unity for the de Boor recurrence. -/

theorem binner_fst_length (U : List ℚ) (i : ℕ) (u : ℚ) (j : ℕ) :
    ∀ (rs : List ℕ) (N : List ℚ) (saved : ℚ),
      (binner U i u j rs N saved).1.length = N.length := by
  intro rs
  induction rs with
  | nil => intro N saved; rfl
  | cons r rs ih =>
    intro N saved
    simp only [binner]
    split_ifs with h
    · simp
    · rw [ih]
      simp

theorem binner_fst_getD_ge (U : List ℚ) (i : ℕ) (u : ℚ) (j : ℕ) :
    ∀ (rs : List ℕ) (N : List ℚ) (saved : ℚ) (t : ℕ),
      (∀ r ∈ rs, r < t) →
      (binner U i u j rs N saved).1.getD t 0 = N.getD t 0 := by
  intro rs
  induction rs with
  | nil => intro N saved t _; rfl
  | cons r rs ih =>
    intro N saved t hlt
    have hrt : r ≠ t := Nat.ne_of_lt (hlt r (List.mem_cons_self r rs))
    simp only [binner]
    split_ifs with h
    · exact getD_set_ne N r t 0 hrt
    · rw [ih _ _ t (fun x hx => hlt x (List.mem_cons_of_mem r hx))]
      exact getD_set_ne _ r t _ hrt

theorem binner_sum (U : List ℚ) (i : ℕ) (u : ℚ) (j : ℕ) :
    ∀ (rs : List ℕ) (N : List ℚ) (saved : ℚ),
      (∀ r ∈ rs, bright U i u (r + 1) + bleft U i u (j - r) ≠ 0) →
      (∀ r ∈ rs, r < N.length) →
      (binner U i u j rs N saved).1.sum + (binner U i u j rs N saved).2
        = N.sum + saved := by
  intro rs
  induction rs with
  | nil => intro N saved _ _; rfl
  | cons r rs ih =>
    intro N saved hden hlen
    have hd := hden r (List.mem_cons_self r rs)
    have hl := hlen r (List.mem_cons_self r rs)
    simp only [binner]
    rw [if_neg hd]
    rw [ih _ _ (fun x hx => hden x (List.mem_cons_of_mem r hx))
      (fun x hx => by rw [List.length_set]; exact hlen x (List.mem_cons_of_mem r hx))]
    rw [sum_set N r _ hl]
    field_simp
    ring

theorem bouter_inv (U : List ℚ) (i : ℕ) (u : ℚ) :
    ∀ (m k : ℕ) (N : List ℚ),
      1 ≤ k →
      k + m ≤ N.length →
      (∀ t, k ≤ t → N.getD t 0 = 0) →
      (∀ j r, k ≤ j → j < k + m → r < j →
        bright U i u (r + 1) + bleft U i u (j - r) ≠ 0) →
      (bouter U i u (List.range' k m) N).sum = N.sum ∧
      (bouter U i u (List.range' k m) N).length = N.length := by
  intro m
  induction m with
  | zero =>
    intro k N hk hlen hz hden
    rw [List.range'_zero]
    exact ⟨rfl, rfl⟩
  | succ m ih =>
    intro k N hk hlen hz hden
    rw [List.range'_succ]
    simp only [bouter]
    set out := binner U i u k (List.range k) N 0 with hout
    have hblen : out.1.length = N.length := binner_fst_length U i u k (List.range k) N 0
    have hbsum : out.1.sum + out.2 = N.sum + 0 :=
      binner_sum U i u k (List.range k) N 0
        (fun r hr => hden k r le_rfl (by omega) (List.mem_range.mp hr))
        (fun r hr => by have := List.mem_range.mp hr; omega)
    have hgetk : out.1.getD k 0 = N.getD k 0 :=
      binner_fst_getD_ge U i u k (List.range k) N 0 k (fun r hr => List.mem_range.mp hr)
    have hk0 : N.getD k 0 = 0 := hz k le_rfl
    have hsum2 : (out.1.set k out.2).sum = N.sum := by
      rw [sum_set out.1 k out.2 (by rw [hblen]; omega)]
      rw [hgetk, hk0]
      linarith [hbsum]
    have hlen2 : (out.1.set k out.2).length = N.length := by simp [hblen]
    have hrec := ih (k + 1) (out.1.set k out.2) (by omega) (by rw [hlen2]; omega)
      (fun t ht => by
        rw [getD_set_ne out.1 k t out.2 (by omega)]
        rw [binner_fst_getD_ge U i u k (List.range k) N 0 t
          (fun r hr => by have := List.mem_range.mp hr; omega)]
        exact hz t (by omega))
      (fun j r hj hjm hr => hden j r (by omega) (by omega) hr)
    exact ⟨by rw [hrec.1, hsum2], by rw [hrec.2, hlen2]⟩

/-- C2 (partition of unity): for every non-decreasing knot vector U and
valid span (p <= i, i + p in range, U[i] < U[i+1]) and every parameter
u, the p+1 values returned by basisfuns sum to exactly 1 in the exact
rational model — in particular within the claimed 1e-9 tolerance in
floating point — and whenever an inner-loop denominator is zero the
recurrence sets the corresponding entry N[r] to 0 and exits the loop
instead of dividing (last conjunct; under the stated span hypotheses
that denominator is in fact never zero). -/
theorem basisfuns_partition_of_unity (i p : ℕ) (u : ℚ) (U : List ℚ)
    (j r : ℕ) (rs : List ℕ) (N : List ℚ) (saved : ℚ)
    (hU : List.Sorted (· ≤ ·) U) (hpi : p ≤ i)
    (hlen : i + p < U.length)
    (hspan : U.getD i 0 < U.getD (i + 1) 0) :
    ((basisfuns i u p U).sum = 1 ∧ (basisfuns i u p U).length = p + 1) ∧
    (bright U i u (r + 1) + bleft U i u (j - r) = 0 →
      binner U i u j (r :: rs) N saved = (N.set r 0, saved)) := by
  constructor
  · rw [basisfuns]
    split_ifs with h1 h2
    · constructor
      · simp [List.sum_replicate]
      · simp
    · constructor
      · simp [List.sum_append, List.sum_replicate]
      · simp
    · have hmap : (List.range p).map (· + 1) = List.range' 1 p := by
        rw [List.range'_eq_map_range]
        exact List.map_congr_left (fun k _ => by omega)
      rw [hmap]
      have hden : ∀ a b, 1 ≤ a → a < 1 + p → b < a →
          bright U i u (b + 1) + bleft U i u (a - b) ≠ 0 := by
        intro a b ha hap hba
        have hbr : bright U i u (b + 1) = U.getD (i + b + 1) 0 - u := by
          rw [bright]
          have hcast : (i : ℤ) + ((b + 1 : ℕ) : ℤ) = ((i + b + 1 : ℕ) : ℤ) := by
            push_cast
            ring
          rw [hcast, pyget_natCast]
        have hbl : bleft U i u (a - b) = u - U.getD (i + 1 - (a - b)) 0 := by
          rw [bleft]
          have hcast : (i : ℤ) + 1 - ((a - b : ℕ) : ℤ) = ((i + 1 - (a - b) : ℕ) : ℤ) := by
            omega
          rw [hcast, pyget_natCast]
        rw [hbr, hbl]
        have hlo : U.getD (i + 1 - (a - b)) 0 ≤ U.getD i 0 :=
          sorted_getD_mono U hU _ i (by omega) (by omega)
        have hhi : U.getD (i + 1) 0 ≤ U.getD (i + b + 1) 0 :=
          sorted_getD_mono U hU _ _ (by omega) (by omega)
        intro heq
        linarith
      have hres := bouter_inv U i u p 1 (1 :: List.replicate p 0) le_rfl
        (by rw [List.length_cons, List.length_replicate]; omega)
        (fun t ht => by
          cases t with
          | zero => omega
          | succ s =>
            rw [List.getD_cons_succ]
            exact getD_replicate_zero p s)
        hden
      constructor
      · rw [hres.1]
        simp [List.sum_replicate]
      · rw [hres.2]
        simp
  · intro h
    simp only [binner, if_pos h]

/-- C2 witness: a concrete span with the hypotheses discharged, the
basis values summing to exactly 1, and the zero-denominator branch
equation instantiated. -/
theorem basisfuns_partition_of_unity_witness :
    (((basisfuns 2 (3/2) 1 [0, 0, 1, 2, 2]).sum = 1 ∧
      (basisfuns 2 (3/2) 1 [0, 0, 1, 2, 2]).length = 1 + 1) ∧
     (bright [0, 0, 1, 2, 2] 2 (3/2) (0 + 1) + bleft [0, 0, 1, 2, 2] 2 (3/2) (1 - 0) = 0 →
       binner [0, 0, 1, 2, 2] 2 (3/2) 1 [0] [1, 0] 0 = ([1, 0].set 0 0, 0))) :=
  basisfuns_partition_of_unity 2 1 (3/2) [0, 0, 1, 2, 2] 1 0 [] [1, 0] 0
    (by decide) (by decide) (by decide) (by decide)

end SplineFit
